import Mathlib

/-!
# Verification of the delta-debugging core

A shallow embedding of the `delta_debugging` Python package: the
configuration index algebra (`configuration.py`), the `DDMin`, `ZipMin` and
`ProbDD` reduction algorithms (`algorithms/ddmin.py`, `algorithms/zipmin.py`,
`algorithms/probdd.py`), the whitespace expansion of HDD
(`algorithms/hdd.py`), the prefix-tree cache (`caches/tree.py`) and the
`Debugger` orchestration (`debugger.py`).

Configurations are modelled by their index sequences (`List ℕ`); an `Input`
enters only through its length, except in HDD where the byte data is needed
for the whitespace test.  Python floats in ProbDD are modelled by exact
rationals (`ℚ`); fallible construction returns `Option`.
-/

namespace DeltaDebugging

/-- `Outcome` of a test (`outcome.py`): PASS, FAIL or UNRESOLVED. -/
inductive Outcome where
  | PASS : Outcome
  | FAIL : Outcome
  | UNRESOLVED : Outcome
deriving DecidableEq, Repr

/-! ## Configuration index algebra (`configuration.py`)

`Configuration.__add__` merges the two sorted index tuples with
`heapq.merge` and then drops elements equal to the running `last` value
(initialised to `-1`).  `Configuration.__sub__` keeps the indices of the
left operand that do not occur in the right operand. -/

/-- `heapq.merge` on two sorted lists: repeatedly pop the smaller head,
taking from the first list on ties (`heapq.merge` is stable). -/
def mergeSorted : List ℕ → List ℕ → List ℕ
  | [], ys => ys
  | xs, [] => xs
  | x :: xs, y :: ys =>
      if x ≤ y then x :: mergeSorted xs (y :: ys)
      else y :: mergeSorted (x :: xs) ys
termination_by xs ys => xs.length + ys.length

/-- The deduplication loop of `Configuration.__add__`: append `x` only when
it differs from the running `last` value (an `int`, initially `-1`). -/
def dedupFrom (last : ℤ) : List ℕ → List ℕ
  | [] => []
  | x :: xs => if (x : ℤ) = last then dedupFrom last xs else x :: dedupFrom (x : ℤ) xs

/-- `Configuration.__add__` on index sequences: sorted merge followed by
deduplication against `last = -1`. -/
def addIdx (a b : List ℕ) : List ℕ :=
  dedupFrom (-1) (mergeSorted a b)

/-- `Configuration.__sub__` on index sequences: elements of `a` whose index
is not in `b`. -/
def subIdx (a b : List ℕ) : List ℕ :=
  a.filter (fun d => d ∉ b)

/-- The validation loop of `Configuration.__post_init__`: `true` iff no
adjacent pair satisfies `indices[i] >= indices[i+1]`. -/
def validIndices : List ℕ → Bool
  | [] => true
  | [_] => true
  | x :: y :: rest => if x ≥ y then false else validIndices (y :: rest)

/-- A configuration as constructed by `Configuration.__init__`: the bound
input (represented by its length) and the index tuple.  `__post_init__`
performs no bounds check against the input. -/
structure Config where
  inputLen : ℕ
  indices : List ℕ
deriving DecidableEq, Repr

/-- `Configuration(input, indices)`: raises `ValueError` (modelled as
`none`) iff the validation loop rejects the index sequence. -/
def mkConfiguration (inputLen : ℕ) (indices : List ℕ) : Option Config :=
  if validIndices indices then some ⟨inputLen, indices⟩ else none

/-! ### Facts about the algebra -/

theorem mem_mergeSorted (a b : List ℕ) (x : ℕ) :
    x ∈ mergeSorted a b ↔ x ∈ a ∨ x ∈ b := by
  induction a, b using mergeSorted.induct with
  | case1 ys => simp [mergeSorted]
  | case2 xs h => cases xs <;> simp [mergeSorted]
  | case3 x xs y ys hle ih =>
      rw [mergeSorted, if_pos hle]
      simp only [List.mem_cons, ih]
      tauto
  | case4 x xs y ys hle ih =>
      rw [mergeSorted, if_neg hle]
      simp only [List.mem_cons, ih]
      tauto

theorem length_mergeSorted (a b : List ℕ) :
    (mergeSorted a b).length = a.length + b.length := by
  induction a, b using mergeSorted.induct with
  | case1 ys => simp [mergeSorted]
  | case2 xs h => cases xs <;> simp [mergeSorted]
  | case3 x xs y ys hle ih => rw [mergeSorted, if_pos hle]; simp [ih]; omega
  | case4 x xs y ys hle ih => rw [mergeSorted, if_neg hle]; simp [ih]; omega

theorem chain'_le_mergeSorted (a b : List ℕ) (ha : List.Chain' (· ≤ ·) a)
    (hb : List.Chain' (· ≤ ·) b) : List.Chain' (· ≤ ·) (mergeSorted a b) := by
  induction a, b using mergeSorted.induct with
  | case1 ys => simpa [mergeSorted] using hb
  | case2 xs h =>
      cases xs with
      | nil => simp [mergeSorted]
      | cons x xs => simpa [mergeSorted] using ha
  | case3 x xs y ys hle ih =>
      rw [mergeSorted, if_pos hle]
      refine List.chain'_cons'.mpr ⟨?_, ih ha.tail hb⟩
      intro z hz
      rcases xs with _ | ⟨x', xs⟩
      · simp [mergeSorted] at hz
        omega
      · have hx' := (List.chain'_cons.mp ha).1
        rw [mergeSorted] at hz
        split at hz <;> simp at hz <;> omega
  | case4 x xs y ys hle ih =>
      rw [mergeSorted, if_neg hle]
      refine List.chain'_cons'.mpr ⟨?_, ih ha hb.tail⟩
      intro z hz
      rcases ys with _ | ⟨y', ys⟩
      · simp [mergeSorted] at hz
        omega
      · have hy' := (List.chain'_cons.mp hb).1
        rw [mergeSorted] at hz
        split at hz <;> simp at hz <;> omega

theorem mem_dedupFrom (v : ℤ) (l : List ℕ) (hl : List.Pairwise (· ≤ ·) l)
    (hv : ∀ y ∈ l, v ≤ (y : ℤ)) (x : ℕ) :
    x ∈ dedupFrom v l ↔ x ∈ l ∧ (x : ℤ) ≠ v := by
  induction l generalizing v with
  | nil => simp [dedupFrom]
  | cons a l ih =>
      have hal : ∀ y ∈ l, a ≤ y := fun y hy => (List.pairwise_cons.mp hl).1 y hy
      have hva : v ≤ (a : ℤ) := hv a (List.mem_cons_self a l)
      by_cases hav : (a : ℤ) = v
      · rw [dedupFrom, if_pos hav]
        rw [ih v (List.pairwise_cons.mp hl).2
          (fun y hy => hv y (List.mem_cons_of_mem a hy))]
        constructor
        · rintro ⟨h1, h2⟩
          exact ⟨List.mem_cons_of_mem _ h1, h2⟩
        · rintro ⟨h1, h2⟩
          rcases List.mem_cons.mp h1 with rfl | h1
          · exact absurd hav h2
          · exact ⟨h1, h2⟩
      · rw [dedupFrom, if_neg hav]
        simp only [List.mem_cons]
        rw [ih (a : ℤ) (List.pairwise_cons.mp hl).2
          (fun y hy => by exact_mod_cast hal y hy)]
        constructor
        · rintro (rfl | ⟨h1, h2⟩)
          · exact ⟨Or.inl rfl, hav⟩
          · have : (a : ℤ) ≤ (x : ℤ) := by exact_mod_cast hal x h1
            exact ⟨Or.inr h1, by omega⟩
        · rintro ⟨rfl | h1, h2⟩
          · exact Or.inl rfl
          · by_cases hxa : x = a
            · exact Or.inl hxa
            · exact Or.inr ⟨h1, by exact_mod_cast hxa⟩

theorem pairwise_lt_dedupFrom (v : ℤ) (l : List ℕ)
    (hl : List.Pairwise (· ≤ ·) l) : List.Pairwise (· < ·) (dedupFrom v l) := by
  induction l generalizing v with
  | nil => simp [dedupFrom]
  | cons a l ih =>
      have htl := (List.pairwise_cons.mp hl).2
      have hal : ∀ y ∈ l, a ≤ y := fun y hy => (List.pairwise_cons.mp hl).1 y hy
      by_cases hav : (a : ℤ) = v
      · rw [dedupFrom, if_pos hav]
        exact ih v htl
      · rw [dedupFrom, if_neg hav]
        refine List.pairwise_cons.mpr ⟨?_, ih (a : ℤ) htl⟩
        intro y hy
        have := (mem_dedupFrom (a : ℤ) l htl
          (fun z hz => by exact_mod_cast hal z hz) y).mp hy
        have h1 : a ≤ y := hal y this.1
        have h2 : (y : ℤ) ≠ (a : ℤ) := this.2
        omega

theorem dedupFrom_eq_self (v : ℤ) (l : List ℕ) (hl : List.Pairwise (· < ·) l)
    (hv : ∀ y ∈ l, v < (y : ℤ)) : dedupFrom v l = l := by
  induction l generalizing v with
  | nil => simp [dedupFrom]
  | cons a l ih =>
      have hva : v < (a : ℤ) := hv a (List.mem_cons_self a l)
      rw [dedupFrom, if_neg (by omega)]
      have hal : ∀ y ∈ l, a < y := fun y hy => (List.pairwise_cons.mp hl).1 y hy
      rw [ih (a : ℤ) (List.pairwise_cons.mp hl).2
        (fun y hy => by exact_mod_cast hal y hy)]

theorem pairwise_le_of_lt {l : List ℕ} (h : List.Pairwise (· < ·) l) :
    List.Pairwise (· ≤ ·) l :=
  h.imp (fun hxy => le_of_lt hxy)

theorem chain'_le_of_pairwise_lt {l : List ℕ} (h : List.Pairwise (· < ·) l) :
    List.Chain' (· ≤ ·) l :=
  List.chain'_iff_pairwise.mpr (pairwise_le_of_lt h)

theorem mem_addIdx (a b : List ℕ) (ha : List.Pairwise (· < ·) a)
    (hb : List.Pairwise (· < ·) b) (x : ℕ) :
    x ∈ addIdx a b ↔ x ∈ a ∨ x ∈ b := by
  have hm : List.Pairwise (· ≤ ·) (mergeSorted a b) :=
    List.chain'_iff_pairwise.mp
      (chain'_le_mergeSorted a b (chain'_le_of_pairwise_lt ha)
        (chain'_le_of_pairwise_lt hb))
  rw [addIdx, mem_dedupFrom (-1) _ hm (fun y _ => by omega) x, mem_mergeSorted]
  have : (x : ℤ) ≠ -1 := by omega
  tauto

theorem pairwise_addIdx (a b : List ℕ) (ha : List.Pairwise (· < ·) a)
    (hb : List.Pairwise (· < ·) b) : List.Pairwise (· < ·) (addIdx a b) := by
  have hm : List.Pairwise (· ≤ ·) (mergeSorted a b) :=
    List.chain'_iff_pairwise.mp
      (chain'_le_mergeSorted a b (chain'_le_of_pairwise_lt ha)
        (chain'_le_of_pairwise_lt hb))
  exact pairwise_lt_dedupFrom (-1) _ hm

/-- Two strictly sorted index lists with the same members are equal. -/
theorem sorted_eq_of_mem_iff {a b : List ℕ} (ha : List.Pairwise (· < ·) a)
    (hb : List.Pairwise (· < ·) b) (h : ∀ x, x ∈ a ↔ x ∈ b) : a = b := by
  haveI : IsAntisymm ℕ (· < ·) := ⟨fun x y hx hy => absurd hx (not_lt_of_gt hy)⟩
  have hna : a.Nodup := ha.imp (fun hxy => ne_of_lt hxy)
  have hnb : b.Nodup := hb.imp (fun hxy => ne_of_lt hxy)
  have hperm : a.Perm b := (List.perm_ext_iff_of_nodup hna hnb).mpr h
  exact List.eq_of_perm_of_sorted hperm ha hb

/-- When every element of `a` is below every element of `b`,
`Configuration.__add__` is plain concatenation. -/
theorem addIdx_of_forall_lt (a b : List ℕ) (ha : List.Pairwise (· < ·) a)
    (hb : List.Pairwise (· < ·) b) (h : ∀ x ∈ a, ∀ y ∈ b, x < y) :
    addIdx a b = a ++ b := by
  have hmerge : mergeSorted a b = a ++ b := by
    induction a with
    | nil => cases b <;> simp [mergeSorted]
    | cons x xs ih =>
        cases b with
        | nil => simp [mergeSorted]
        | cons y ys =>
            have hxy : x < y :=
              h x (List.mem_cons_self x xs) y (List.mem_cons_self y ys)
            rw [mergeSorted, if_pos (le_of_lt hxy)]
            rw [List.cons_append]
            congr 1
            exact ih (List.pairwise_cons.mp ha).2
              (fun z hz => h z (List.mem_cons_of_mem x hz))
  have hpab : List.Pairwise (· < ·) (a ++ b) :=
    List.pairwise_append.mpr ⟨ha, hb, h⟩
  rw [addIdx, hmerge]
  exact dedupFrom_eq_self (-1) (a ++ b) hpab (fun y _ => by omega)

theorem addIdx_nil (a : List ℕ) (ha : List.Pairwise (· < ·) a) :
    addIdx a [] = a := by
  have := addIdx_of_forall_lt a [] ha (List.Pairwise.nil) (by simp)
  simpa using this

theorem nil_addIdx (b : List ℕ) (hb : List.Pairwise (· < ·) b) :
    addIdx [] b = b := by
  rw [addIdx]
  have : mergeSorted [] b = b := by cases b <;> simp [mergeSorted]
  rw [this]
  exact dedupFrom_eq_self (-1) b hb (fun y _ => by omega)

/-- **C7 (configuration algebra laws).**  For strictly sorted index
sequences `A`, `B`, `C` over a common input: `(A+B)+C = A+(B+C)`,
`A+A = A`, `A-A = ∅`, `A+∅ = A`, and `A+B` is again strictly sorted
(sorted with no duplicates). -/
theorem claim_c7_configuration_algebra (A B C : List ℕ)
    (hA : List.Pairwise (· < ·) A) (hB : List.Pairwise (· < ·) B)
    (hC : List.Pairwise (· < ·) C) :
    addIdx (addIdx A B) C = addIdx A (addIdx B C) ∧
    addIdx A A = A ∧
    subIdx A A = [] ∧
    addIdx A [] = A ∧
    (List.Pairwise (· < ·) (addIdx A B) ∧ (addIdx A B).Nodup) := by
  refine ⟨?_, ?_, ?_, addIdx_nil A hA, pairwise_addIdx A B hA hB,
    (pairwise_addIdx A B hA hB).imp (fun hxy => ne_of_lt hxy)⟩
  · have hAB := pairwise_addIdx A B hA hB
    have hBC := pairwise_addIdx B C hB hC
    refine sorted_eq_of_mem_iff (pairwise_addIdx _ C hAB hC)
      (pairwise_addIdx A _ hA hBC) ?_
    intro x
    rw [mem_addIdx _ C hAB hC, mem_addIdx A B hA hB,
      mem_addIdx A _ hA hBC, mem_addIdx B C hB hC]
    tauto
  · refine sorted_eq_of_mem_iff (pairwise_addIdx A A hA hA) hA ?_
    intro x
    rw [mem_addIdx A A hA hA]
    tauto
  · rw [subIdx]
    rw [List.filter_eq_nil_iff]
    intro x hx
    simp [hx]

/-- Witness for C7 at concrete sorted sequences. -/
theorem claim_c7_witness :
    (List.Pairwise (· < ·) [0, 2] ∧ List.Pairwise (· < ·) [1, 2] ∧
      List.Pairwise (· < ·) [3]) ∧
    (addIdx (addIdx [0, 2] [1, 2]) [3] = addIdx [0, 2] (addIdx [1, 2] [3]) ∧
      addIdx [0, 2] [0, 2] = [0, 2] ∧ subIdx [0, 2] [0, 2] = [] ∧
      addIdx [0, 2] [] = [0, 2] ∧
      (List.Pairwise (· < ·) (addIdx [0, 2] [1, 2]) ∧
        (addIdx [0, 2] [1, 2]).Nodup)) :=
  ⟨⟨by decide, by decide, by decide⟩,
    claim_c7_configuration_algebra [0, 2] [1, 2] [3]
      (by decide) (by decide) (by decide)⟩

/-! ### C9: construction-time validation -/

theorem validIndices_iff_chain' (l : List ℕ) :
    validIndices l = true ↔ List.Chain' (· < ·) l := by
  induction l using validIndices.induct with
  | case1 => simp [validIndices]
  | case2 x => simp only [validIndices, List.chain'_singleton]
  | case3 x y rest hxy =>
      rw [validIndices, if_pos hxy]
      simp only [Bool.false_eq_true, false_iff]
      intro hch
      exact absurd (List.chain'_cons.mp hch).1 (by omega)
  | case4 x y rest hxy ih =>
      rw [validIndices, if_neg hxy]
      rw [ih, List.chain'_cons]
      constructor
      · intro h
        exact ⟨by omega, h⟩
      · intro h
        exact h.2

/-- **C9 (counterexample).**  Constructing a `Configuration` does *not*
bounds-check the indices: over an input of length 1 the index sequence
`[5]` is accepted, yet `5` is not within `[0, 1)`. -/
theorem claim_c9_counterexample :
    mkConfiguration 1 [5] = some ⟨1, [5]⟩ ∧
    ¬ (∀ i ∈ [5], i < 1) := by
  constructor
  · decide
  · intro h
    exact absurd (h 5 (by decide)) (by decide)

/-- **C9 (amended).**  Constructing a `Configuration` raises `ValueError`
iff the index sequence is not strictly increasing; no check relates the
indices to the input's length (out-of-range indices are accepted). -/
theorem claim_c9_validation (inputLen : ℕ) (indices : List ℕ) :
    mkConfiguration inputLen indices = none ↔
      ¬ List.Chain' (· < ·) indices := by
  rw [mkConfiguration]
  by_cases h : validIndices indices
  · rw [if_pos h]
    simp only [reduceCtorEq, false_iff, not_not]
    exact (validIndices_iff_chain' indices).mp h
  · rw [if_neg h]
    simp only [true_iff]
    rw [← validIndices_iff_chain' indices]
    simpa using h

/-! ## DDMin (`algorithms/ddmin.py`)

`DDMin._complements` partitions the current configuration into
`granularity` nearly equal contiguous chunks (`end = start +
(len - start) // (granularity - i)`) and yields, for each chunk, the
configuration `config[:start] + config[end:]`.  `DDMin.run` starts from the
full configuration with granularity 2 and, at each round, moves to the
first failing complement (decrementing the granularity, floored at 2), or
else doubles the granularity capped at `len(config)`, terminating when no
complement fails at `granularity >= len(config)` or when
`len(config) < 2`.  The embedding is of `run` with `cache=None`, for which
`Algorithm._test` is exactly the oracle call. -/

/-- `DDMin._complements`, counting down the `k = granularity - i` remaining
chunks from position `start`. -/
def complementsFrom (config : List ℕ) : ℕ → ℕ → List (List ℕ)
  | 0, _ => []
  | k + 1, start =>
      addIdx (config.take start)
          (config.drop (start + (config.length - start) / (k + 1))) ::
        complementsFrom config k (start + (config.length - start) / (k + 1))

/-- `DDMin._complements(config, granularity)`. -/
def complements (config : List ℕ) (granularity : ℕ) : List (List ℕ) :=
  complementsFrom config granularity 0

/-- The complement-testing loop of `DDMin.run`: return the first
complement on which the oracle yields FAIL, if any. -/
def findFirstFail (oracle : List ℕ → Outcome) : List (List ℕ) → Option (List ℕ)
  | [] => none
  | c :: cs => if oracle c = Outcome.FAIL then some c else findFirstFail oracle cs

theorem findFirstFail_mem {oracle : List ℕ → Outcome} :
    ∀ {l : List (List ℕ)} {c : List ℕ}, findFirstFail oracle l = some c →
      c ∈ l ∧ oracle c = Outcome.FAIL := by
  intro l
  induction l with
  | nil => intro c h; simp [findFirstFail] at h
  | cons a l ih =>
      intro c h
      rw [findFirstFail] at h
      by_cases ha : oracle a = Outcome.FAIL
      · rw [if_pos ha] at h
        cases h
        exact ⟨List.mem_cons_self a l, ha⟩
      · rw [if_neg ha] at h
        obtain ⟨h1, h2⟩ := ih h
        exact ⟨List.mem_cons_of_mem a h1, h2⟩

theorem pairwise_take_drop {l : List ℕ} (hl : List.Pairwise (· < ·) l)
    {s e : ℕ} (hse : s ≤ e) :
    ∀ x ∈ l.take s, ∀ y ∈ l.drop e, x < y := by
  have hsplit : List.Pairwise (· < ·) (l.take s ++ l.drop s) := by
    rw [List.take_append_drop]
    exact hl
  have hcross := (List.pairwise_append.mp hsplit).2.2
  intro x hx y hy
  refine hcross x hx y ?_
  have : l.drop e = (l.drop s).drop (e - s) := by
    rw [List.drop_drop]
    congr 1
    omega
  rw [this] at hy
  exact List.mem_of_mem_drop hy

theorem take_append_drop_sublist (l : List ℕ) {s e : ℕ} (hse : s ≤ e) :
    (l.take s ++ l.drop e).Sublist l := by
  have h1 : l.drop e = (l.drop s).drop (e - s) := by
    rw [List.drop_drop]
    congr 1
    omega
  have h2 : (l.drop e).Sublist (l.drop s) := by
    rw [h1]
    exact List.drop_sublist _ _
  calc (l.take s ++ l.drop e).Sublist (l.take s ++ l.drop s) :=
        h2.append_left (l.take s)
    _ = l := List.take_append_drop s l

/-- The chunk width `(len - start) / (k + 1)` is at least 1 and leaves at
least `k` elements behind, provided `start + (k + 1) ≤ len`. -/
theorem chunk_div_bounds (len start k : ℕ) (h : start + (k + 1) ≤ len) :
    1 ≤ (len - start) / (k + 1) ∧
      (len - start) / (k + 1) + k ≤ len - start := by
  have hmod := Nat.div_add_mod (len - start) (k + 1)
  have hr : (len - start) % (k + 1) < k + 1 := Nat.mod_lt _ (by omega)
  rcases Nat.eq_zero_or_pos ((len - start) / (k + 1)) with hq | hq
  · rw [hq] at hmod
    simp at hmod
    omega
  · have hexp : (k + 1) * ((len - start) / (k + 1)) =
        k * ((len - start) / (k + 1)) + (len - start) / (k + 1) := by ring
    have hkq : k * 1 ≤ k * ((len - start) / (k + 1)) :=
      Nat.mul_le_mul_left k hq
    rw [hexp] at hmod
    rw [Nat.mul_one] at hkq
    exact ⟨hq, by omega⟩

/-- Structure of the complements: each complement is a sublist of the
configuration, is strictly shorter, and — because the chunks absorb the
remainder left-to-right — retains at least `start + k - 1` elements. -/
theorem complementsFrom_spec (config : List ℕ)
    (hc : List.Pairwise (· < ·) config) :
    ∀ (k start : ℕ), 1 ≤ k → start + k ≤ config.length →
      ∀ comp ∈ complementsFrom config k start,
        comp.Sublist config ∧ comp.length < config.length ∧
          start + k - 1 ≤ comp.length := by
  intro k
  induction k with
  | zero => intro start h; omega
  | succ k ih =>
      intro start _ hlen comp hcomp
      obtain ⟨hq1, hqm⟩ := chunk_div_bounds config.length start k hlen
      have hse : start ≤ start + (config.length - start) / (k + 1) := by omega
      rw [complementsFrom] at hcomp
      rcases List.mem_cons.mp hcomp with rfl | htail
      · have happ : addIdx (config.take start)
            (config.drop (start + (config.length - start) / (k + 1))) =
            config.take start ++
              config.drop (start + (config.length - start) / (k + 1)) :=
          addIdx_of_forall_lt _ _ (hc.sublist (List.take_sublist _ _))
            (hc.sublist (List.drop_sublist _ _))
            (pairwise_take_drop hc hse)
        rw [happ]
        have hlen1 : (config.take start ++
            config.drop (start + (config.length - start) / (k + 1))).length =
            start +
              (config.length - (start + (config.length - start) / (k + 1))) := by
          rw [List.length_append, List.length_take, List.length_drop]
          omega
        refine ⟨take_append_drop_sublist config hse, ?_, ?_⟩
        · rw [hlen1]; omega
        · rw [hlen1]; omega
      · rcases Nat.eq_zero_or_pos k with rfl | hk1
        · simp [complementsFrom] at htail
        · obtain ⟨h1, h2, h3⟩ :=
            ih (start + (config.length - start) / (k + 1)) hk1 (by omega)
              comp htail
          exact ⟨h1, h2, by omega⟩

/-- `DDMin.run` (with `cache=None`).  The loop carries the invariants that
the configuration is strictly sorted, `2 ≤ granularity`, and
`granularity ≤ len(config)` whenever `len(config) ≥ 2`; it terminates by
the lexicographic measure `(len(config), len(config) - granularity)`. -/
def ddminGo (oracle : List ℕ → Outcome) (config : List ℕ) (granularity : ℕ)
    (hc : List.Pairwise (· < ·) config) (hg : 2 ≤ granularity)
    (hge : granularity ≤ config.length ∨ config.length < 2) : List ℕ :=
  if hlen : config.length < 2 then config
  else
    match hf : findFirstFail oracle (complements config granularity) with
    | some comp =>
        have hmem := findFirstFail_mem hf
        have hspec := complementsFrom_spec config hc granularity 0
          (by omega) (by omega) comp hmem.1
        ddminGo oracle comp (max (granularity - 1) 2) (hc.sublist hspec.1)
          (le_max_right _ _) (by omega)
    | none =>
        if hlt : granularity < config.length then
          ddminGo oracle config (min (granularity * 2) config.length) hc
            (by omega) (Or.inl (min_le_right _ _))
        else config
termination_by (config.length, config.length - granularity)
decreasing_by
  · exact Prod.Lex.left _ _ hspec.2.1
  · exact Prod.Lex.right _ (by omega)

/-- `DDMin.run(input, oracle)`: start from `Configuration.from_input`
(indices `[0, …, n-1]`) at granularity 2. -/
def ddminRun (n : ℕ) (oracle : List ℕ → Outcome) : List ℕ :=
  ddminGo oracle (List.range n) 2 (List.pairwise_lt_range n) (le_refl 2)
    (by rw [List.length_range]; omega)

/-- Soundness of the DDMin loop: the configuration only ever moves to a
tested FAIL complement, so the result is a sublist of the starting
configuration and still fails whenever the starting configuration does. -/
theorem ddminGo_sound (oracle : List ℕ → Outcome) (config : List ℕ)
    (granularity : ℕ) (hc : List.Pairwise (· < ·) config)
    (hg : 2 ≤ granularity)
    (hge : granularity ≤ config.length ∨ config.length < 2)
    (hfail : oracle config = Outcome.FAIL) :
    (ddminGo oracle config granularity hc hg hge).Sublist config ∧
      oracle (ddminGo oracle config granularity hc hg hge) = Outcome.FAIL := by
  induction config, granularity, hc, hg, hge using ddminGo.induct oracle with
  | case1 config granularity hc hg hge hlen =>
      rw [ddminGo, dif_pos hlen]
      exact ⟨List.Sublist.refl config, hfail⟩
  | case2 config granularity hc hg hge hlen comp hf hmem hspec ih =>
      rw [ddminGo, dif_neg hlen]
      split
      next comp' heq =>
        rw [hf] at heq
        injection heq with heq2
        subst heq2
        obtain ⟨ih1, ih2⟩ := ih hmem.2
        exact ⟨ih1.trans hspec.1, ih2⟩
      next heq =>
        rw [hf] at heq
        cases heq
  | case3 config granularity hc hg hge hlen hf hlt ih =>
      rw [ddminGo, dif_neg hlen]
      split
      next comp' heq =>
        rw [hf] at heq
        cases heq
      next heq =>
        rw [dif_pos hlt]
        exact ih hfail
  | case4 config granularity hc hg hge hlen hf hlt =>
      rw [ddminGo, dif_neg hlen]
      split
      next comp' heq =>
        rw [hf] at heq
        cases heq
      next heq =>
        rw [dif_neg hlt]
        exact ⟨List.Sublist.refl config, hfail⟩

/-- If the oracle fails on no complement of the current configuration (at
any granularity), the DDMin loop never moves and returns its starting
configuration. -/
theorem ddminGo_noFail (oracle : List ℕ → Outcome) (config : List ℕ)
    (granularity : ℕ) (hc : List.Pairwise (· < ·) config)
    (hg : 2 ≤ granularity)
    (hge : granularity ≤ config.length ∨ config.length < 2)
    (h : ∀ (g : ℕ), ∀ comp ∈ complements config g,
      oracle comp ≠ Outcome.FAIL) :
    ddminGo oracle config granularity hc hg hge = config := by
  induction config, granularity, hc, hg, hge using ddminGo.induct oracle with
  | case1 config granularity hc hg hge hlen =>
      rw [ddminGo, dif_pos hlen]
  | case2 config granularity hc hg hge hlen comp hf hmem hspec ih =>
      exact absurd hmem.2 (h granularity comp hmem.1)
  | case3 config granularity hc hg hge hlen hf hlt ih =>
      rw [ddminGo, dif_neg hlen]
      split
      next comp' heq =>
        rw [hf] at heq
        cases heq
      next heq =>
        rw [dif_pos hlt]
        exact ih h
  | case4 config granularity hc hg hge hlen hf hlt =>
      rw [ddminGo, dif_neg hlen]
      split
      next comp' heq =>
        rw [hf] at heq
        cases heq
      next heq =>
        rw [dif_neg hlt]

/-- **C6 (DDMin termination; unreduced result without FAIL).**
`DDMin.run` is a total function — `ddminGo` is defined by well-founded
recursion on `(len(config), len(config) - granularity)`, with the
granularity doubling capped at `len(config)` and the loop exiting when no
complement fails at `granularity ≥ len(config)` or when
`len(config) < 2`.  Moreover, if the oracle never returns FAIL on any
tested complement — every complement tested is a complement of the full
configuration, since the configuration never moves — the returned
configuration is the full configuration `from_input(input)`,
unreduced. -/
theorem claim_c6_ddmin_terminates_unreduced (n : ℕ)
    (oracle : List ℕ → Outcome)
    (h : ∀ (g : ℕ), ∀ comp ∈ complements (List.range n) g,
      oracle comp ≠ Outcome.FAIL) :
    ddminRun n oracle = List.range n := by
  rw [ddminRun]
  exact ddminGo_noFail oracle (List.range n) 2 _ _ _ h

/-- Witness for C6: a PASS-everywhere oracle leaves the input of length 3
unreduced. -/
theorem claim_c6_witness :
    ddminRun 3 (fun _ => Outcome.PASS) = List.range 3 :=
  claim_c6_ddmin_terminates_unreduced 3 (fun _ => Outcome.PASS)
    (fun _ _ _ hne => Outcome.noConfusion hne)

/-! ## ZipMin (`algorithms/zipmin.py`)

`ZipMin.run` keeps three configurations `pre | config | post` plus a
fragment `length` (initially `len(config) // 2`), a `count` phase toggle
and a `deficit`.  While `length > 0 and len(config) > 0` it runs the
fragment phase (`_remove_check_each_fragment`) when `count` is even and
the trim phase (`deficit` iterations of `_remove_last_char`) when `count`
is odd, finally returning `pre + config + post`.  The embedding is of
`run` with `cache=None`.  Python's `config[:-1]` is `List.dropLast` and
the one-element `config[-1]` is `config.drop (config.length - 1)`. -/

/-- `ZipMin._remove_last_char`: test `pre + config[:-1] + post`; on FAIL
drop the last element, otherwise move it to the front of `post`. -/
def removeLastChar (oracle : List ℕ → Outcome) (pre config post : List ℕ) :
    List ℕ × List ℕ × List ℕ :=
  if oracle (addIdx (addIdx pre config.dropLast) post) = Outcome.FAIL then
    (pre, config.dropLast, post)
  else
    (pre, config.dropLast, addIdx (config.drop (config.length - 1)) post)

/-- The loop of `ZipMin._remove_check_each_fragment` over the remaining
fragments (`rest = config[i:]`): test `pre + c + config[i+length:] + post`;
keep the fragment (append it to `c`) unless the outcome is FAIL, in which
case count one more removal. -/
def fragGo (oracle : List ℕ → Outcome) (pre post : List ℕ) (length : ℕ)
    (hlen : 0 < length) : List ℕ → List ℕ → ℕ → List ℕ × ℕ
  | c, [], count => (c, count)
  | c, x :: rest, count =>
      if oracle (addIdx (addIdx (addIdx pre c) ((x :: rest).drop length)) post)
          ≠ Outcome.FAIL then
        fragGo oracle pre post length hlen (addIdx c ((x :: rest).take length))
          ((x :: rest).drop length) count
      else
        fragGo oracle pre post length hlen c ((x :: rest).drop length)
          (count + 1)
termination_by _ rest _ => rest.length
decreasing_by
  · simp only [List.length_drop, List.length_cons]
    omega
  · simp only [List.length_drop, List.length_cons]
    omega

/-- `ZipMin._remove_check_each_fragment`: run the fragment loop from an
empty accumulator and return `(c, max(count - (len(config) - len(c)), 0))`. -/
def removeCheckEachFragment (oracle : List ℕ → Outcome)
    (pre config post : List ℕ) (length : ℕ) (hlen : 0 < length) :
    List ℕ × ℕ :=
  let r := fragGo oracle pre post length hlen [] config 0
  (r.1, max (r.2 - (config.length - r.1.length)) 0)

/-- The trim loop of `ZipMin.run`: `deficit` times,
`pre, c, post = _remove_last_char(oracle, pre, config, post)` — note that
the source passes the loop-invariant `config`, not the freshly computed
`c`, to every iteration. -/
def trimFold (oracle : List ℕ → Outcome) (config : List ℕ) :
    ℕ → List ℕ × List ℕ × List ℕ → List ℕ × List ℕ × List ℕ
  | 0, s => s
  | k + 1, s => trimFold oracle config k (removeLastChar oracle s.1 config s.2.2)

/-- The trim loop leaves `c` untouched when `deficit = 0` and otherwise
ends with `c = config[:-1]`: every iteration re-trims the same `config`. -/
theorem trimFold_snd_fst (oracle : List ℕ → Outcome) (config : List ℕ) :
    ∀ (k : ℕ) (s : List ℕ × List ℕ × List ℕ),
      (trimFold oracle config k s).2.1 =
        if k = 0 then s.2.1 else config.dropLast := by
  intro k
  induction k with
  | zero => intro s; simp [trimFold]
  | succ k ih =>
      intro s
      rw [trimFold, ih]
      rcases Nat.eq_zero_or_pos k with rfl | hk
      · simp [removeLastChar]
        split <;> rfl
      · rw [if_neg (by omega), if_neg (by omega)]

/-- The kept accumulator of the fragment loop is a sublist of
`c ++ rest`. -/
theorem fragGo_sublist (oracle : List ℕ → Outcome) (pre post : List ℕ)
    (length : ℕ) (hlen : 0 < length) :
    ∀ (c rest : List ℕ) (count : ℕ), List.Pairwise (· < ·) (c ++ rest) →
      (fragGo oracle pre post length hlen c rest count).1.Sublist (c ++ rest) := by
  intro c rest count
  induction c, rest, count using fragGo.induct oracle pre post length hlen with
  | case1 c count =>
      intro _
      simp [fragGo]
  | case2 c x rest count hne ih =>
      intro hp
      have hcross : ∀ a ∈ c, ∀ b ∈ x :: rest, a < b :=
        (List.pairwise_append.mp hp).2.2
      have htd : addIdx c ((x :: rest).take length) =
          c ++ (x :: rest).take length :=
        addIdx_of_forall_lt _ _
          ((List.pairwise_append.mp hp).1)
          (((List.pairwise_append.mp hp).2.1).sublist (List.take_sublist _ _))
          (fun a ha b hb => hcross a ha b (List.mem_of_mem_take hb))
      rw [fragGo, if_pos hne]
      have hsplit : (c ++ (x :: rest).take length) ++ (x :: rest).drop length =
          c ++ x :: rest := by
        rw [List.append_assoc, List.take_append_drop]
      have h2 : (addIdx c ((x :: rest).take length)) ++ (x :: rest).drop length =
          c ++ x :: rest := by
        rw [htd]
        exact hsplit
      have hp' : List.Pairwise (· < ·)
          ((addIdx c ((x :: rest).take length)) ++ (x :: rest).drop length) := by
        rw [h2]
        exact hp
      have h3 := ih hp'
      rw [h2] at h3
      exact h3
  | case3 c x rest count hne ih =>
      intro hp
      rw [fragGo, if_neg hne]
      have hsub : (c ++ (x :: rest).drop length).Sublist (c ++ x :: rest) :=
        (List.drop_sublist _ _).append_left c
      exact (ih (hp.sublist hsub)).trans hsub

/-- The main loop of `ZipMin.run`, carrying `(config, length, count,
deficit, pre, post)`.  Note that the source never increments `count`, so
the trim branch is unreachable from `run`; it is embedded nonetheless.
Terminates by the measure `(len(config), length)`. -/
def zipGo (oracle : List ℕ → Outcome) (config : List ℕ)
    (length count deficit : ℕ) (pre post : List ℕ)
    (hc : List.Pairwise (· < ·) config) : List ℕ :=
  if hstop : ¬(0 < length ∧ 0 < config.length) then
    addIdx (addIdx pre config) post
  else
    if hodd : count % 2 = 1 then
      zipGo oracle (trimFold oracle config deficit (pre, [], post)).2.1 length
        count 0 (trimFold oracle config deficit (pre, [], post)).1
        (trimFold oracle config deficit (pre, [], post)).2.2
        (by
          rw [trimFold_snd_fst]
          split
          · exact List.Pairwise.nil
          · exact hc.sublist (List.dropLast_sublist config))
    else
      if heq : (removeCheckEachFragment oracle pre config post length
          (by omega)).1 = config then
        zipGo oracle (removeCheckEachFragment oracle pre config post length
            (by omega)).1 (length / 2) count
          (removeCheckEachFragment oracle pre config post length (by omega)).2
          pre post (heq ▸ hc)
      else
        zipGo oracle (removeCheckEachFragment oracle pre config post length
            (by omega)).1 length count
          (removeCheckEachFragment oracle pre config post length (by omega)).2
          pre post
          (hc.sublist (by
            have := fragGo_sublist oracle pre post length (by omega) [] config 0
              (by simpa using hc)
            simpa [removeCheckEachFragment] using this))
termination_by (config.length, length)
decreasing_by
  · apply Prod.Lex.left
    rw [trimFold_snd_fst]
    split
    · simp only [List.length_nil]
      omega
    · rw [List.length_dropLast]
      omega
  · rw [heq]
    apply Prod.Lex.right
    omega
  · apply Prod.Lex.left
    have hsub : (removeCheckEachFragment oracle pre config post length
        (by omega)).1.Sublist config := by
      have := fragGo_sublist oracle pre post length (by omega) [] config 0
        (by simpa using hc)
      simpa [removeCheckEachFragment] using this
    refine lt_of_le_of_ne hsub.length_le ?_
    intro hlen
    exact heq (hsub.eq_of_length hlen)

/-- `ZipMin.run(input, oracle)` with `cache=None`: start from the full
configuration, `length = len(config) // 2`, `count = deficit = 0` and
empty `pre`/`post`. -/
def zipminRun (n : ℕ) (oracle : List ℕ → Outcome) : List ℕ :=
  zipGo oracle (List.range n) (n / 2) 0 0 [] [] (List.pairwise_lt_range n)

/-- With empty `pre`/`post`, the fragment loop preserves failure: the
kept accumulator still fails at the end of the pass.  (A fragment is only
dropped when the tested remainder fails, and keeping a fragment leaves the
tested union unchanged.) -/
theorem fragGo_fail (oracle : List ℕ → Outcome) (length : ℕ)
    (hlen : 0 < length) :
    ∀ (c rest : List ℕ) (count : ℕ), List.Pairwise (· < ·) (c ++ rest) →
      oracle (c ++ rest) = Outcome.FAIL →
      oracle ((fragGo oracle [] [] length hlen c rest count).1) =
        Outcome.FAIL := by
  intro c rest count
  induction c, rest, count using fragGo.induct oracle [] [] length hlen with
  | case1 c count =>
      intro _ hfail
      rw [fragGo]
      simpa using hfail
  | case2 c x rest count hne ih =>
      intro hp hfail
      have hcross : ∀ a ∈ c, ∀ b ∈ x :: rest, a < b :=
        (List.pairwise_append.mp hp).2.2
      have htd : addIdx c ((x :: rest).take length) =
          c ++ (x :: rest).take length :=
        addIdx_of_forall_lt _ _
          ((List.pairwise_append.mp hp).1)
          (((List.pairwise_append.mp hp).2.1).sublist (List.take_sublist _ _))
          (fun a ha b hb => hcross a ha b (List.mem_of_mem_take hb))
      have h2 : (addIdx c ((x :: rest).take length)) ++ (x :: rest).drop length =
          c ++ x :: rest := by
        rw [htd, List.append_assoc, List.take_append_drop]
      rw [fragGo, if_pos hne]
      apply ih
      · rw [h2]
        exact hp
      · rw [h2]
        exact hfail
  | case3 c x rest count hne ih =>
      intro hp hfail
      have hpc : List.Pairwise (· < ·) c := (List.pairwise_append.mp hp).1
      have hcross : ∀ a ∈ c, ∀ b ∈ x :: rest, a < b :=
        (List.pairwise_append.mp hp).2.2
      have hsub : (c ++ (x :: rest).drop length).Sublist (c ++ x :: rest) :=
        (List.drop_sublist _ _).append_left c
      have hpd : List.Pairwise (· < ·) (c ++ (x :: rest).drop length) :=
        hp.sublist hsub
      have htest : addIdx (addIdx (addIdx [] c) ((x :: rest).drop length)) [] =
          c ++ (x :: rest).drop length := by
        rw [nil_addIdx c hpc]
        rw [addIdx_of_forall_lt _ _ hpc
          (((List.pairwise_append.mp hp).2.1).sublist (List.drop_sublist _ _))
          (fun a ha b hb => hcross a ha b (List.mem_of_mem_drop hb))]
        exact addIdx_nil _ hpd
      have hfl : oracle (c ++ (x :: rest).drop length) = Outcome.FAIL := by
        rw [← htest]
        exact not_not.mp hne
      rw [fragGo, if_neg hne]
      exact ih hpd hfl

/-- Soundness of the ZipMin loop in its reachable states (`pre = post =
[]`, `count` even — the source never increments `count`): the result is a
failing sublist of the current configuration. -/
theorem zipGo_sound (oracle : List ℕ → Outcome) :
    ∀ (config : List ℕ) (length count deficit : ℕ) (pre post : List ℕ)
      (hc : List.Pairwise (· < ·) config),
      pre = [] → post = [] → count % 2 = 0 →
      oracle config = Outcome.FAIL →
      (zipGo oracle config length count deficit pre post hc).Sublist config ∧
        oracle (zipGo oracle config length count deficit pre post hc) =
          Outcome.FAIL := by
  intro config length count deficit pre post hc
  induction config, length, count, deficit, pre, post, hc
    using zipGo.induct oracle with
  | case1 config length count deficit pre post hc hstop =>
      intro hpre hpost _ hfail
      subst hpre hpost
      rw [zipGo, dif_pos hstop, nil_addIdx config hc, addIdx_nil config hc]
      exact ⟨List.Sublist.refl config, hfail⟩
  | case2 config length count deficit pre post hc hstop hodd ih =>
      intro _ _ heven _
      omega
  | case3 config length count deficit pre post hc hstop hodd heq ih =>
      intro hpre hpost heven hfail
      rw [zipGo, dif_neg hstop, dif_neg hodd, dif_pos heq]
      have hfail' : oracle (removeCheckEachFragment oracle pre config post
          length (by omega)).1 = Outcome.FAIL := by
        rw [heq]
        exact hfail
      obtain ⟨ih1, ih2⟩ := ih hpre hpost heven hfail'
      have hsub2 : (removeCheckEachFragment oracle pre config post length
          (by omega)).1.Sublist config := by
        rw [heq]
      exact ⟨ih1.trans hsub2, ih2⟩
  | case4 config length count deficit pre post hc hstop hodd heq ih =>
      intro hpre hpost heven hfail
      rw [zipGo, dif_neg hstop, dif_neg hodd, dif_neg heq]
      have hsub : (removeCheckEachFragment oracle pre config post length
          (by omega)).1.Sublist config := by
        have := fragGo_sublist oracle pre post length (by omega) [] config 0
          (by simpa using hc)
        simpa [removeCheckEachFragment] using this
      have hfail' : oracle (removeCheckEachFragment oracle pre config post
          length (by omega)).1 = Outcome.FAIL := by
        subst hpre hpost
        have := fragGo_fail oracle length (by omega) [] config 0
          (by simpa using hc) (by simpa using hfail)
        simpa [removeCheckEachFragment] using this
      obtain ⟨ih1, ih2⟩ := ih hpre hpost heven hfail'
      exact ⟨ih1.trans hsub, ih2⟩

/-! ## ProbDD (`algorithms/probdd.py`)

The probability table (`Probability` with `to_tuple=False`, backed by a
Python dict) is modelled as an insertion-ordered association list
`List (ℕ × ℚ)`; Python floats are modelled by exact rationals.  The
unbounded `while True` loop of `ProbDD.run` is embedded with an explicit
iteration budget (`fuel`), returning `none` when the budget is exhausted;
its per-iteration behaviour is embedded exactly.  The embedding is of
`run` with `cache=None`. -/

/-- Dict lookup `probabilities[key]`: the value stored at the first (and,
keys being unique, only) matching key.  A missing key raises `KeyError` in
Python and is never hit by `run`; the model returns 0. -/
def lookupProb : List (ℕ × ℚ) → ℕ → ℚ
  | [], _ => 0
  | p :: ps, k => if p.1 = k then p.2 else lookupProb ps k

/-- Dict store `probabilities[key] = v`: update in place if present,
else append (insertion order). -/
def setProb : List (ℕ × ℚ) → ℕ → ℚ → List (ℕ × ℚ)
  | [], k, v => [(k, v)]
  | p :: ps, k, v => if p.1 = k then (k, v) :: ps else p :: setProb ps k v

/-- The initialisation loop of `ProbDD.run`:
`for c in config: probabilities[c] = 0.1`. -/
def initProbs (config : List ℕ) : List (ℕ × ℚ) :=
  config.foldl (fun acc c => setProb acc c (1 / 10)) []

/-- `ProbDD._stop`: stop when the set of probability values is one of
`{0}`, `{1}`, `{0,1}` (equivalently: nonempty and contained in `{0,1}`),
or when every value has reached the convergence threshold. -/
def stopCheck (probs : List (ℕ × ℚ)) (threshold : ℚ) : Bool :=
  if ¬(probs.map (·.2)).isEmpty ∧
      (probs.map (·.2)).all (fun p => p = 0 ∨ p = 1) then
    true
  else
    (probs.map (·.2)).all (fun p => threshold ≤ p)

/-- The `while i < len(probabilities)` loop of `ProbDD._sample`: skip
leading zero-probability entries (advancing `k`), stop at the first
entry `≥ 1` or when the expected retention
`(i - k + 1) · Π_{j=k..i} (1 - p[keys[j]])` drops below its previous
value; returns the final `(i, k)`. -/
def sampleLoop (probs : List (ℕ × ℚ)) (keys : List ℕ) (i k : ℕ)
    (last : ℚ) : ℕ × ℕ :=
  if i < probs.length then
    if lookupProb probs (keys.getD i 0) = 0 then
      sampleLoop probs keys (i + 1) (k + 1) last
    else if 1 ≤ lookupProb probs (keys.getD i 0) then
      (i, k)
    else
      if ((List.range' k (i + 1 - k)).foldl
            (fun acc j => acc * (1 - lookupProb probs (keys.getD j 0))) 1) *
          ((i - k + 1 : ℕ) : ℚ) < last then
        (i, k)
      else
        sampleLoop probs keys (i + 1) k
          (((List.range' k (i + 1 - k)).foldl
            (fun acc j => acc * (1 - lookupProb probs (keys.getD j 0))) 1) *
          ((i - k + 1 : ℕ) : ℚ))
  else (i, k)
termination_by probs.length - i

/-- `ProbDD._sample`: run the loop from `i = k = 0`, `last = 0`, then
collect `keys[k], …, keys[i-1]` in reverse order. -/
def sample (probs : List (ℕ × ℚ)) : List ℕ :=
  (((probs.map (·.1)).drop (sampleLoop probs (probs.map (·.1)) 0 0 0).2).take
    ((sampleLoop probs (probs.map (·.1)) 0 0 0).1 -
      (sampleLoop probs (probs.map (·.1)) 0 0 0).2)).reverse

/-- `ProbDD._ratio`: `1 / (1 - Π_{d ∈ deleted, 0 < p[d] < 1} (1 - p[d]))`.
(When the product is 1 Python raises `ZeroDivisionError`, unreachable from
`run`; `ℚ` division by zero yields 0.) -/
def ratioValue (deleted : List ℕ) (probs : List (ℕ × ℚ)) : ℚ :=
  1 / (1 - deleted.foldl
    (fun acc d =>
      if 0 < lookupProb probs d ∧ lookupProb probs d < 1 then
        acc * (1 - lookupProb probs d)
      else acc) 1)

/-- `ProbDD._difference` (with `to_tuple=False`): elements of `config1`
not in `config2`. -/
def diffConfig (config1 config2 : List ℕ) : List ℕ :=
  config1.filter (fun c => c ∉ config2)

/-- `probabilities.sort()`: stable sort of the table by value. -/
def sortProbs (probs : List (ℕ × ℚ)) : List (ℕ × ℚ) :=
  probs.mergeSort (fun a b => a.2 ≤ b.2)

/-- The FAIL branch of `ProbDD.run`: zero the probability of every key
outside the new passing configuration. -/
def zeroOutside (trial : List ℕ) (probs : List (ℕ × ℚ)) : List (ℕ × ℚ) :=
  probs.map (fun p => if p.1 ∈ trial then p else (p.1, 0))

/-- The non-FAIL update loop of `ProbDD.run`, over the key snapshot
`probabilities.key_list()`: each key outside `trial` whose probability is
neither 0 nor 1 is rescaled by `ratio - 1`, where the ratio is recomputed
from the *current* (partially updated) table at each step. -/
def updateProbs (deleted trial : List ℕ) :
    List ℕ → List (ℕ × ℚ) → List (ℕ × ℚ)
  | [], probs => probs
  | key :: keys, probs =>
      if key ∉ trial ∧ lookupProb probs key ≠ 0 ∧ lookupProb probs key ≠ 1 then
        updateProbs deleted trial keys
          (setProb probs key (lookupProb probs key +
            (ratioValue deleted probs - 1) * lookupProb probs key))
      else
        updateProbs deleted trial keys probs

/-- The `len(deleted) == 1` rule: set the probability of each deleted
element to 1. -/
def setOnes (deleted : List ℕ) (probs : List (ℕ × ℚ)) : List (ℕ × ℚ) :=
  deleted.foldl (fun acc d => setProb acc d 1) probs

/-- The main loop of `ProbDD.run` with an explicit iteration budget.  Each
iteration: stop test, stable sort by probability, sample a deletion set,
test `passed \ deleted`; on FAIL zero the removed keys and advance
`passed`, otherwise run the rescaling update and the singleton rule. -/
def probddGo (oracle : List ℕ → Outcome) :
    ℕ → List (ℕ × ℚ) → List ℕ → Option (List ℕ)
  | 0, _, _ => none
  | fuel + 1, probs, passed =>
      if stopCheck probs (4 / 5) then some passed
      else
        if oracle (diffConfig passed (sample (sortProbs probs))) =
            Outcome.FAIL then
          probddGo oracle fuel
            (zeroOutside (diffConfig passed (sample (sortProbs probs)))
              (sortProbs probs))
            (diffConfig passed (sample (sortProbs probs)))
        else
          if (sample (sortProbs probs)).length = 1 then
            probddGo oracle fuel
              (setOnes (sample (sortProbs probs))
                (updateProbs (sample (sortProbs probs))
                  (diffConfig passed (sample (sortProbs probs)))
                  ((sortProbs probs).map (·.1)) (sortProbs probs)))
              passed
          else
            probddGo oracle fuel
              (updateProbs (sample (sortProbs probs))
                (diffConfig passed (sample (sortProbs probs)))
                ((sortProbs probs).map (·.1)) (sortProbs probs))
              passed

/-- `ProbDD.run(config, oracle)` with `cache=None` and iteration budget
`fuel`: `passed` starts as the given configuration and every probability
starts at 0.1. -/
def probddRun (fuel : ℕ) (config : List ℕ) (oracle : List ℕ → Outcome) :
    Option (List ℕ) :=
  probddGo oracle fuel (initProbs config) config

/-- Soundness of the ProbDD loop: `passed` only ever advances to a tested
FAIL configuration obtained by deleting elements, so any returned value is
a sublist of the original and fails (or is the untouched original). -/
theorem probddGo_sound (oracle : List ℕ → Outcome) (config0 : List ℕ) :
    ∀ (fuel : ℕ) (probs : List (ℕ × ℚ)) (passed : List ℕ),
      passed.Sublist config0 →
      (oracle passed = Outcome.FAIL ∨ passed = config0) →
      ∀ r, probddGo oracle fuel probs passed = some r →
        r.Sublist config0 ∧ (oracle r = Outcome.FAIL ∨ r = config0) := by
  intro fuel
  induction fuel with
  | zero =>
      intro probs passed _ _ r hr
      simp [probddGo] at hr
  | succ fuel ih =>
      intro probs passed hsub hst r hr
      rw [probddGo] at hr
      by_cases hstop : stopCheck probs (4 / 5) = true
      · rw [if_pos hstop] at hr
        cases hr
        exact ⟨hsub, hst⟩
      · rw [if_neg hstop] at hr
        by_cases hfl : oracle (diffConfig passed (sample (sortProbs probs))) =
            Outcome.FAIL
        · rw [if_pos hfl] at hr
          refine ih _ _ ?_ (Or.inl hfl) r hr
          exact (List.filter_sublist passed).trans hsub
        · rw [if_neg hfl] at hr
          by_cases h1 : (sample (sortProbs probs)).length = 1
          · rw [if_pos h1] at hr
            exact ih _ _ hsub hst r hr
          · rw [if_neg h1] at hr
            exact ih _ _ hsub hst r hr

/-- **C1 (soundness of DDMin, ZipMin and ProbDD).**  For every input
length `n` and deterministic oracle that fails on the full configuration
`[0, …, n-1]`, each algorithm returns a configuration that is a
subsequence of the full configuration and on which the oracle returns
FAIL.  (`DDMin.run` and `ZipMin.run` are total functions of the embedding;
`ProbDD.run`, whose loop has no structural bound, is embedded with an
iteration budget and the guarantee holds for every budget that returns.) -/
theorem claim_c1_soundness (n : ℕ) (oracle : List ℕ → Outcome)
    (hfail : oracle (List.range n) = Outcome.FAIL) :
    ((ddminRun n oracle).Sublist (List.range n) ∧
      oracle (ddminRun n oracle) = Outcome.FAIL) ∧
    ((zipminRun n oracle).Sublist (List.range n) ∧
      oracle (zipminRun n oracle) = Outcome.FAIL) ∧
    (∀ (fuel : ℕ) (r : List ℕ), probddRun fuel (List.range n) oracle = some r →
      r.Sublist (List.range n) ∧ oracle r = Outcome.FAIL) := by
  refine ⟨?_, ?_, ?_⟩
  · exact ddminGo_sound oracle (List.range n) 2 _ _ _ hfail
  · exact zipGo_sound oracle (List.range n) (n / 2) 0 0 [] [] _ rfl rfl rfl hfail
  · intro fuel r hr
    obtain ⟨h1, h2⟩ := probddGo_sound oracle (List.range n) fuel _ _
      (List.Sublist.refl _) (Or.inr rfl) r hr
    rcases h2 with h2 | h2
    · exact ⟨h1, h2⟩
    · subst h2
      exact ⟨h1, hfail⟩

/-- Witness for C1: the constantly-FAIL oracle on an input of length 2. -/
theorem claim_c1_witness :
    ((ddminRun 2 (fun _ => Outcome.FAIL)).Sublist (List.range 2) ∧
      (fun _ => Outcome.FAIL) (ddminRun 2 (fun _ => Outcome.FAIL)) =
        Outcome.FAIL) ∧
    ((zipminRun 2 (fun _ => Outcome.FAIL)).Sublist (List.range 2) ∧
      (fun _ => Outcome.FAIL) (zipminRun 2 (fun _ => Outcome.FAIL)) =
        Outcome.FAIL) ∧
    (∀ (fuel : ℕ) (r : List ℕ),
      probddRun fuel (List.range 2) (fun _ => Outcome.FAIL) = some r →
        r.Sublist (List.range 2) ∧
          (fun _ => Outcome.FAIL) r = Outcome.FAIL) :=
  claim_c1_soundness 2 (fun _ => Outcome.FAIL) rfl

/-! ### C5: the non-FAIL probability update -/

/-- The update loop as the claim reads it: identical to `updateProbs`
except that the ratio is computed once and for all from the probabilities
as they were *before any update of the iteration* (`probs0`).  This
definition follows the claim's words, for comparison with the
source-faithful `updateProbs`. -/
def updateProbsFixedRatio (deleted trial : List ℕ)
    (probs0 : List (ℕ × ℚ)) : List ℕ → List (ℕ × ℚ) → List (ℕ × ℚ)
  | [], probs => probs
  | key :: keys, probs =>
      if key ∉ trial ∧ lookupProb probs key ≠ 0 ∧ lookupProb probs key ≠ 1 then
        updateProbsFixedRatio deleted trial probs0 keys
          (setProb probs key (lookupProb probs key +
            (ratioValue deleted probs0 - 1) * lookupProb probs key))
      else
        updateProbsFixedRatio deleted trial probs0 keys probs

theorem lookupProb_setProb_self (probs : List (ℕ × ℚ)) (k : ℕ) (v : ℚ) :
    lookupProb (setProb probs k v) k = v := by
  induction probs with
  | nil => simp [setProb, lookupProb]
  | cons p ps ih =>
      rw [setProb]
      by_cases h : p.1 = k
      · rw [if_pos h]
        simp [lookupProb]
      · rw [if_neg h]
        rw [lookupProb, if_neg h]
        exact ih

theorem lookupProb_setProb_ne (probs : List (ℕ × ℚ)) (k k' : ℕ) (v : ℚ)
    (h : k ≠ k') : lookupProb (setProb probs k' v) k = lookupProb probs k := by
  induction probs with
  | nil =>
      rw [setProb, lookupProb, lookupProb, if_neg (Ne.symm h)]
      rw [lookupProb]
  | cons p ps ih =>
      rw [setProb]
      by_cases hp : p.1 = k'
      · rw [if_pos hp]
        rw [lookupProb, lookupProb, if_neg (Ne.symm h),
          if_neg (show ¬p.1 = k by rw [hp]; exact Ne.symm h)]
      · rw [if_neg hp]
        rw [lookupProb, lookupProb]
        by_cases hk : p.1 = k
        · rw [if_pos hk, if_pos hk]
        · rw [if_neg hk, if_neg hk]
          exact ih

theorem lookupProb_updateProbs_not_mem (deleted trial : List ℕ) (k : ℕ) :
    ∀ (keys : List ℕ) (probs : List (ℕ × ℚ)), k ∉ keys →
      lookupProb (updateProbs deleted trial keys probs) k =
        lookupProb probs k := by
  intro keys
  induction keys with
  | nil => intro probs _; rw [updateProbs]
  | cons key keys ih =>
      intro probs hk
      have hne : k ≠ key := fun h => hk (h ▸ List.mem_cons_self key keys)
      have hkk : k ∉ keys := fun h => hk (List.mem_cons_of_mem key h)
      rw [updateProbs]
      split
      · rw [ih _ hkk, lookupProb_setProb_ne _ _ _ _ hne]
      · exact ih _ hkk

/-- **C5 (counterexample).**  With two deleted keys of probability 1/10
each (and empty trial), the source's update differs from the claim's
fixed pre-iteration ratio: the second key is updated with a ratio that
already reflects the first key's new probability
(`19/109` instead of `10/19`). -/
theorem claim_c5_counterexample :
    updateProbs [0, 1] [] [0, 1] [(0, 1/10), (1, 1/10)] ≠
      updateProbsFixedRatio [0, 1] [] [(0, 1/10), (1, 1/10)] [0, 1]
        [(0, 1/10), (1, 1/10)] := by
  have h1 : updateProbs [0, 1] [] [0, 1] [(0, 1/10), (1, 1/10)] =
      [(0, 10/19), (1, 19/109)] := by
    norm_num [updateProbs, lookupProb, setProb, ratioValue]
  have h2 : updateProbsFixedRatio [0, 1] [] [(0, 1/10), (1, 1/10)] [0, 1]
      [(0, 1/10), (1, 1/10)] = [(0, 10/19), (1, 10/19)] := by
    norm_num [updateProbsFixedRatio, lookupProb, setProb, ratioValue]
  rw [h1, h2]
  intro h
  have := List.head_eq_of_cons_eq (List.tail_eq_of_cons_eq h)
  rw [Prod.mk.injEq] at this
  norm_num at this

/-- **C5 (amended).**  In a non-FAIL iteration the qualifying keys (outside
the trial, probability neither 0 nor 1) are updated sequentially, each
with the ratio recomputed from the table as it stands at that point; the
claim's `p[k] + (ratio - 1)·p[k]` with the pre-iteration ratio holds for
the *first* qualifying key in table order (later keys see the earlier
updates through the ratio); and if exactly one element was deleted, that
element's probability is then set to 1. -/
theorem claim_c5_ratio_update (deleted trial keys1 keys2 : List ℕ)
    (key : ℕ) (probs : List (ℕ × ℚ))
    (h1 : ∀ k ∈ keys1,
      ¬(k ∉ trial ∧ lookupProb probs k ≠ 0 ∧ lookupProb probs k ≠ 1))
    (h2 : key ∉ trial ∧ lookupProb probs key ≠ 0 ∧ lookupProb probs key ≠ 1)
    (h3 : key ∉ keys2) :
    lookupProb (updateProbs deleted trial (keys1 ++ key :: keys2) probs) key =
      lookupProb probs key +
        (ratioValue deleted probs - 1) * lookupProb probs key ∧
    (∀ (d : ℕ) (table : List (ℕ × ℚ)), deleted = [d] →
      lookupProb (setOnes deleted table) d = 1) := by
  constructor
  · induction keys1 with
    | nil =>
        rw [List.nil_append, updateProbs, if_pos h2]
        rw [lookupProb_updateProbs_not_mem deleted trial key keys2 _ h3]
        exact lookupProb_setProb_self _ _ _
    | cons k1 keys1 ih =>
        rw [List.cons_append, updateProbs,
          if_neg (h1 k1 (List.mem_cons_self k1 keys1))]
        exact ih (fun k hk => h1 k (List.mem_cons_of_mem k1 hk))
  · intro d table hdel
    subst hdel
    rw [setOnes, List.foldl_cons, List.foldl_nil]
    exact lookupProb_setProb_self _ _ _

/-- Witness for C5 at a concrete table with two deleted keys. -/
theorem claim_c5_witness :
    lookupProb (updateProbs [0, 1] [] ([] ++ 0 :: [1])
        [(0, 1/10), (1, 1/10)]) 0 =
      lookupProb [(0, 1/10), (1, 1/10)] 0 +
        (ratioValue [0, 1] [(0, 1/10), (1, 1/10)] - 1) *
          lookupProb [(0, 1/10), (1, 1/10)] 0 ∧
    (∀ (d : ℕ) (table : List (ℕ × ℚ)), [0, 1] = [d] →
      lookupProb (setOnes [0, 1] table) d = 1) :=
  claim_c5_ratio_update [0, 1] [] [] [1] 0 [(0, 1/10), (1, 1/10)]
    (by intro k hk; cases hk)
    (by refine ⟨List.not_mem_nil 0, ?_, ?_⟩ <;> norm_num [lookupProb])
    (by norm_num)

/-! ## HDD whitespace expansion (`algorithms/hdd.py`)

`_Tree._expand(node)` returns the empty configuration when
`node.end >= len(input)`; otherwise it returns `[node.end]` exactly when
the input element at `node.end` is whitespace, and the empty configuration
otherwise — it examines the single byte at `node.end` only.
`_Tree.subsets` builds, per existing child, the configuration
`range(child.start, child.end)` and, when whitespace expansion is enabled,
adds `_expand(child)`.  The embedding is over byte inputs
(`bytes([b]).isspace()`). -/

/-- `bytes([b]).isspace()`: space, \t, \n, \v, \f, \r. -/
def isSpaceByte (b : ℕ) : Bool :=
  b == 32 || b == 9 || b == 10 || b == 11 || b == 12 || b == 13

/-- `_Tree._expand` (byte inputs): the single offset `node.end` when it is
within the input and holds a whitespace byte. -/
def expandWs (data : List ℕ) (nodeEnd : ℕ) : List ℕ :=
  if data.length ≤ nodeEnd then []
  else if isSpaceByte (data.getD nodeEnd 0) then [nodeEnd] else []

/-- The per-child configuration built by `_Tree.subsets`:
`range(child.start, child.end)`, extended with `_expand(child)` when
whitespace expansion is enabled. -/
def subsetFor (data : List ℕ) (start nodeEnd : ℕ)
    (expandWhitespace : Bool) : List ℕ :=
  if expandWhitespace then
    addIdx (List.range' start (nodeEnd - start)) (expandWs data nodeEnd)
  else
    List.range' start (nodeEnd - start)

/-- The expansion as the claim reads it: up to 3 trailing bytes
immediately after the child's range, as long as they are whitespace and
within the input.  This definition follows the claim's words, for
comparison with the source-faithful `expandWs`. -/
def expandWsUpTo3 (data : List ℕ) (nodeEnd : ℕ) : List ℕ :=
  (List.range' nodeEnd 3).takeWhile
    (fun i => decide (i < data.length) && isSpaceByte (data.getD i 0))

/-- The per-child configuration under the claim's reading of the
whitespace rule. -/
def subsetForUpTo3 (data : List ℕ) (start nodeEnd : ℕ) : List ℕ :=
  addIdx (List.range' start (nodeEnd - start)) (expandWsUpTo3 data nodeEnd)

/-- **C4 (counterexample).**  On the byte input `"A   A"` (three spaces
after offset 0) with a child covering `[0, 1)`, the source extends the
subset with the single byte at offset 1, not with the three whitespace
bytes the claim describes. -/
theorem claim_c4_counterexample :
    subsetFor [65, 32, 32, 32, 65] 0 1 true = [0, 1] ∧
    subsetForUpTo3 [65, 32, 32, 32, 65] 0 1 = [0, 1, 2, 3] ∧
    subsetFor [65, 32, 32, 32, 65] 0 1 true ≠
      subsetForUpTo3 [65, 32, 32, 32, 65] 0 1 := by
  refine ⟨?_, ?_, ?_⟩ <;>
    simp [subsetFor, subsetForUpTo3, expandWs, expandWsUpTo3, isSpaceByte,
      addIdx, mergeSorted, dedupFrom, List.range', List.takeWhile]

/-- **C4 (amended).**  With whitespace expansion enabled, each per-child
subset is the contiguous range of the child extended by *at most one*
byte: the single byte at the child's end offset, exactly when that offset
is within the input and holds a whitespace byte; no byte beyond the
input's end is ever added.  (The spec's "up to 3 bytes" bound does not
occur in the code.) -/
theorem claim_c4_expand_one_byte (data : List ℕ) (s e : ℕ) (hse : s ≤ e) :
    subsetFor data s e true =
      (if e < data.length ∧ isSpaceByte (data.getD e 0) then
        List.range' s (e + 1 - s)
      else List.range' s (e - s)) ∧
    (expandWs data e).length ≤ 1 ∧
    (∀ i ∈ expandWs data e, i < data.length ∧ isSpaceByte (data.getD i 0)) := by
  have hpr : List.Pairwise (· < ·) (List.range' s (e - s)) := by
    have := List.pairwise_lt_range' s (e - s) 1
    exact this.imp (fun hxy => hxy)
  have hmem : ∀ x ∈ List.range' s (e - s), x < e := by
    intro x hx
    have := List.mem_range'_1.mp hx
    omega
  constructor
  · rw [subsetFor, if_pos rfl, expandWs]
    by_cases h1 : data.length ≤ e
    · rw [if_pos h1, addIdx_nil _ hpr, if_neg (by rintro ⟨hlt, -⟩; omega)]
    · rw [if_neg h1]
      by_cases h2 : isSpaceByte (data.getD e 0)
      · rw [if_pos h2, if_pos ⟨by omega, h2⟩]
        rw [addIdx_of_forall_lt _ _ hpr (List.pairwise_singleton _ _)
          (fun x hx y hy => by
            rw [List.mem_singleton] at hy
            exact hy ▸ hmem x hx)]
        have hn : e + 1 - s = (e - s) + 1 := by omega
        have he : s + (e - s) = e := by omega
        rw [hn, List.range'_1_concat, he]
      · rw [if_neg h2, addIdx_nil _ hpr,
          if_neg (by rintro ⟨-, hsp⟩; exact h2 hsp)]
  · constructor
    · rw [expandWs]
      split
      · simp
      · split <;> simp
    · intro i hi
      rw [expandWs] at hi
      split at hi
      · cases hi
      · split at hi
        · rw [List.mem_singleton] at hi
          subst hi
          constructor
          · omega
          · assumption
        · cases hi

/-- Witness for C4 on a child `[0, 2)` followed by a whitespace byte. -/
theorem claim_c4_witness :
    subsetFor [65, 66, 32, 65] 0 2 true =
      (if 2 < [65, 66, 32, 65].length ∧ isSpaceByte ([65, 66, 32, 65].getD 2 0) then
        List.range' 0 (2 + 1 - 0)
      else List.range' 0 (2 - 0)) ∧
    (expandWs [65, 66, 32, 65] 2).length ≤ 1 ∧
    (∀ i ∈ expandWs [65, 66, 32, 65] 2,
      i < [65, 66, 32, 65].length ∧ isSpaceByte ([65, 66, 32, 65].getD i 0)) :=
  claim_c4_expand_one_byte [65, 66, 32, 65] 0 2 (by omega)

/-! ## TreeCache (`caches/tree.py`)

A prefix trie: each `_Node` holds an optional cached `Outcome` and a dict
of children keyed by index (modelled as an insertion-ordered association
list).  `__setitem__` walks the key creating missing nodes (incrementing
`_length` per *created node*), stores the outcome at the terminal node
and, when the outcome is FAIL, runs the pruning walk
`queue = [(node, len(key))]` — starting *at the terminal node* with
budget `len(key)` — which clears the children of every descendant at
relative depth `len(key)` below the terminal.  `clear` replaces the root
but leaves `_length` unchanged.  The single bound input of a cache is not
modelled (no claim concerns input mismatch). -/

/-- A `_Node` of the tree cache. -/
inductive TNode where
  | node : Option Outcome → List (ℕ × TNode) → TNode

/-- Dict lookup `node.children[c]`. -/
def findChild : List (ℕ × TNode) → ℕ → Option TNode
  | [], _ => none
  | c :: cs, k => if c.1 = k then some c.2 else findChild cs k

/-- Dict store `node.children[c] = t`: update in place or append. -/
def setChild : List (ℕ × TNode) → ℕ → TNode → List (ℕ × TNode)
  | [], k, t => [(k, t)]
  | c :: cs, k, t => if c.1 = k then (k, t) :: cs else c :: setChild cs k t

/-- The creation walk of `__setitem__`: follow the key, creating missing
nodes, store the outcome at the terminal node; also return the number of
nodes created (the amount `_length` is incremented by). -/
def insertPath : TNode → List ℕ → Outcome → TNode × ℕ
  | .node _ cs, [], out => (.node (some out) cs, 0)
  | .node v cs, k :: ks, out =>
      match findChild cs k with
      | some child =>
          ((TNode.node v (setChild cs k (insertPath child ks out).1)),
            (insertPath child ks out).2)
      | none =>
          ((TNode.node v
              (cs ++ [(k, (insertPath (.node none []) ks out).1)])),
            (insertPath (.node none []) ks out).2 + 1)

mutual

/-- The pruning walk of `__setitem__`: with budget 0 clear this node's
children, otherwise recurse into every child with budget - 1. -/
def pruneAt : TNode → ℕ → TNode
  | .node v _, 0 => .node v []
  | .node v cs, n + 1 => .node v (pruneList cs n)

/-- `pruneAt` mapped over a children dict. -/
def pruneList : List (ℕ × TNode) → ℕ → List (ℕ × TNode)
  | [], _ => []
  | c :: cs, n => (c.1, pruneAt c.2 n) :: pruneList cs n

end

/-- Apply `f` to the node at the end of `path` (which exists after the
creation walk); a missing path leaves the tree unchanged. -/
def modifyAt : TNode → List ℕ → (TNode → TNode) → TNode
  | t, [], f => f t
  | .node v cs, k :: ks, f =>
      match findChild cs k with
      | some child => .node v (setChild cs k (modifyAt child ks f))
      | none => .node v cs

/-- The lookup walk of `__contains__`: follow the key and test whether the
terminal node holds a stored outcome. -/
def containsPath : TNode → List ℕ → Bool
  | .node v _, [] => v.isSome
  | .node _ cs, k :: ks =>
      match findChild cs k with
      | some child => containsPath child ks
      | none => false

mutual

/-- The number of trie nodes currently holding a stored `Outcome` (what
the spec says `len` tracks). -/
def countStored : TNode → ℕ
  | .node v cs => (if v.isSome then 1 else 0) + countStoredList cs

/-- `countStored` summed over a children dict. -/
def countStoredList : List (ℕ × TNode) → ℕ
  | [] => 0
  | c :: cs => countStored c.2 + countStoredList cs

end

/-- The `TreeCache` state: the root node and the `_length` counter (a
Python `int`). -/
structure TreeCacheState where
  root : TNode
  length : ℤ

/-- `TreeCache()`: an empty root and `_length = 0`. -/
def emptyTreeCache : TreeCacheState := ⟨.node none [], 0⟩

/-- `TreeCache.__setitem__`: create the path (adding the number of created
nodes to `_length`), store the outcome, and on FAIL run the pruning walk
from the terminal node with budget `len(key)`. -/
def cachePut (s : TreeCacheState) (key : List ℕ) (out : Outcome) :
    TreeCacheState :=
  ⟨if out = Outcome.FAIL then
      modifyAt (insertPath s.root key out).1 key
        (fun t => pruneAt t key.length)
    else (insertPath s.root key out).1,
    s.length + ((insertPath s.root key out).2 : ℤ)⟩

/-- `TreeCache.__contains__`. -/
def cacheContains (s : TreeCacheState) (key : List ℕ) : Bool :=
  containsPath s.root key

/-- `TreeCache.__delitem__`: clear the outcome at the terminal node
(without collapsing the path) and decrement `_length`; `none` models the
`KeyError` on a missing entry. -/
def deletePath : TNode → List ℕ → Option TNode
  | .node v cs, [] => if v.isSome then some (.node none cs) else none
  | .node v cs, k :: ks =>
      match findChild cs k with
      | some child =>
          match deletePath child ks with
          | some child' => some (.node v (setChild cs k child'))
          | none => none
      | none => none

/-- `TreeCache.__delitem__` on the cache state. -/
def cacheDelete (s : TreeCacheState) (key : List ℕ) :
    Option TreeCacheState :=
  (deletePath s.root key).map (fun r => ⟨r, s.length - 1⟩)

/-- `TreeCache.clear`: replace the root with a fresh node — `_length` is
not reset. -/
def cacheClear (s : TreeCacheState) : TreeCacheState :=
  ⟨.node none [], s.length⟩

/-- **C2 (the FAIL-prune misses strict supersets).**  Evaluating the code
at the spec's own scenario: after `put([0,1,2], FAIL)` followed by
`put([0,1,2,3], PASS)`, `contains([0,1,2,3])` returns `true` (the claim
and spec say `false`); pruning also fails to remove an
*already-stored* strict superset when the FAIL prefix is stored
afterwards.  The pruning walk starts at the terminal node with budget
`len(key)` instead of 0, so it only clears children at relative depth
`len(key)` below the terminal. -/
theorem claim_c2_prune_missed :
    cacheContains (cachePut (cachePut emptyTreeCache [0, 1, 2] Outcome.FAIL)
      [0, 1, 2, 3] Outcome.PASS) [0, 1, 2, 3] = true ∧
    cacheContains (cachePut (cachePut emptyTreeCache [0, 1, 2, 3] Outcome.PASS)
      [0, 1, 2] Outcome.FAIL) [0, 1, 2, 3] = true := by
  constructor <;> rfl

/-- **C8 (`_length` does not track stored outcomes).**  Evaluating the
code: a single `put` of the length-2 configuration `[0, 1]` into a fresh
cache stores one outcome but sets `len` to 2 (`_length` counts *created
trie nodes*), and a subsequent `clear` empties the trie but leaves
`len = 2`.  This contradicts the claim (and the code's own docstring
"Number of configurations in the cache"). -/
theorem claim_c8_len_mismatch :
    (cachePut emptyTreeCache [0, 1] Outcome.PASS).length = 2 ∧
    countStored (cachePut emptyTreeCache [0, 1] Outcome.PASS).root = 1 ∧
    (cacheClear (cachePut emptyTreeCache [0, 1] Outcome.PASS)).length = 2 ∧
    countStored (cacheClear (cachePut emptyTreeCache [0, 1] Outcome.PASS)).root
      = 0 := by
  refine ⟨rfl, rfl, rfl, rfl⟩

/-! ### C3: the ZipMin trim phase -/

/-- **C3 (the trim loop re-trims the same configuration).**  Evaluating
the trim phase (`for _ in range(deficit): pre, c, post =
self._remove_last_char(oracle, pre, config, post)`) with `deficit = 2` on
`config = [0, 1, 2]` under an always-PASS oracle: the first iteration
tests `[0, 1]` and moves index 2 into `post`; the second iteration —
because the source passes the unchanged `config`, not the freshly
computed `c` — re-trims `[0, 1, 2]` and tests `pre + [0, 1] + post =
[0, 1, 2]` again, ending with `c = [0, 1]` and `post = [2]`.  Only one
distinct trailing element is ever examined, however large `deficit` is
(the claim's iteration-on-the-previous-result would test `[0] + post` and
end with `c = [0]`, `post = [1, 2]`). -/
theorem claim_c3_trim_eval :
    trimFold (fun _ => Outcome.PASS) [0, 1, 2] 2 ([], [], []) =
      ([], [0, 1], [2]) ∧
    removeLastChar (fun _ => Outcome.PASS) [] [0, 1, 2] [2] =
      ([], [0, 1], [2]) ∧
    trimFold (fun _ => Outcome.PASS) [0, 1, 2] 2 ([], [], []) ≠
      ([], [0], [1, 2]) := by
  refine ⟨?_, ?_, ?_⟩ <;>
    simp [trimFold, removeLastChar, addIdx, mergeSorted, dedupFrom]

/-! ## Debugger (`debugger.py`)

`Debugger.__init__` zeroes the per-outcome `Counter`, the elapsed time and
the config/result slots.  `Debugger._oracle` wraps the user oracle and
increments `counters[outcome]` on every invocation.  `Debugger.debug`
stores the starting configuration, runs `algorithm.run(config,
self._oracle)` and overwrites `result` and `time`; it never resets the
counters.  An algorithm is modelled by the function taking the oracle and
the starting configuration to the pair (returned configuration, sequence
of configurations passed to the wrapped oracle); the `time.time()`
difference of a run is supplied as its `elapsed` value. -/

/-- The `Debugger` attributes touched by `debug`: the per-outcome
counters, elapsed time, starting configuration and result. -/
structure DebuggerState where
  counters : Outcome → ℕ
  time : ℚ
  config : List ℕ
  result : List ℕ

/-- `Debugger.__init__`: all counters zero, `time = 0.0`, empty config and
result. -/
def initDebugger : DebuggerState := ⟨fun _ => 0, 0, [], []⟩

/-- One `Debugger.debug(config)` call: the counter of each outcome grows
by the number of wrapped-oracle invocations returning it, while `config`,
`result` and `time` are overwritten with the current run's values. -/
def debugStep (alg : (List ℕ → Outcome) → List ℕ → List ℕ × List (List ℕ))
    (oracle : List ℕ → Outcome) (elapsed : ℚ) (s : DebuggerState)
    (config : List ℕ) : DebuggerState :=
  ⟨fun o => s.counters o +
      ((alg oracle config).2.filter (fun c => decide (oracle c = o))).length,
    elapsed, config, (alg oracle config).1⟩

/-- A sequence of `debug` calls on one `Debugger`, each given its starting
configuration and elapsed time. -/
def debugFold (alg : (List ℕ → Outcome) → List ℕ → List ℕ × List (List ℕ))
    (oracle : List ℕ → Outcome) :
    DebuggerState → List (List ℕ × ℚ) → DebuggerState
  | s, [] => s
  | s, r :: runs => debugFold alg oracle (debugStep alg oracle r.2 s r.1) runs

theorem debugFold_counters
    (alg : (List ℕ → Outcome) → List ℕ → List ℕ × List (List ℕ))
    (oracle : List ℕ → Outcome) :
    ∀ (runs : List (List ℕ × ℚ)) (s : DebuggerState) (o : Outcome),
      (debugFold alg oracle s runs).counters o =
        s.counters o + (runs.map (fun r =>
          ((alg oracle r.1).2.filter (fun c => decide (oracle c = o))).length)).sum := by
  intro runs
  induction runs with
  | nil => intro s o; simp [debugFold]
  | cons r runs ih =>
      intro s o
      rw [debugFold, ih]
      simp [debugStep]
      omega

theorem debugFold_last
    (alg : (List ℕ → Outcome) → List ℕ → List ℕ × List (List ℕ))
    (oracle : List ℕ → Outcome) :
    ∀ (runs : List (List ℕ × ℚ)) (s : DebuggerState) (hne : runs ≠ []),
      (debugFold alg oracle s runs).config = (runs.getLast hne).1 ∧
      (debugFold alg oracle s runs).result =
        (alg oracle (runs.getLast hne).1).1 ∧
      (debugFold alg oracle s runs).time = (runs.getLast hne).2 := by
  intro runs
  induction runs with
  | nil => intro s hne; exact absurd rfl hne
  | cons r runs ih =>
      intro s hne
      cases runs with
      | nil => simp [debugFold, debugStep]
      | cons r' rs =>
          have hne' : r' :: rs ≠ [] := by simp
          rw [debugFold]
          obtain ⟨h1, h2, h3⟩ := ih (debugStep alg oracle r.2 s r.1) hne'
          rw [List.getLast_cons hne']
          exact ⟨h1, h2, h3⟩

/-- **C10 (counters accumulate across `debug` calls; config/result/time
are overwritten).**  Starting from a fresh `Debugger` (counters zeroed
only at construction), after any nonempty sequence of `debug` calls each
counter equals the total number of wrapped-oracle invocations with that
outcome summed over *all* runs, while `config`, `result` and `time` hold
the last run's values. -/
theorem claim_c10_debugger_counters
    (alg : (List ℕ → Outcome) → List ℕ → List ℕ × List (List ℕ))
    (oracle : List ℕ → Outcome) (runs : List (List ℕ × ℚ))
    (hne : runs ≠ []) :
    (∀ o : Outcome, (debugFold alg oracle initDebugger runs).counters o =
      (runs.map (fun r =>
        ((alg oracle r.1).2.filter (fun c => decide (oracle c = o))).length)).sum) ∧
    (debugFold alg oracle initDebugger runs).config = (runs.getLast hne).1 ∧
    (debugFold alg oracle initDebugger runs).result =
      (alg oracle (runs.getLast hne).1).1 ∧
    (debugFold alg oracle initDebugger runs).time = (runs.getLast hne).2 := by
  refine ⟨?_, debugFold_last alg oracle runs initDebugger hne⟩
  intro o
  rw [debugFold_counters alg oracle runs initDebugger o]
  rw [initDebugger]
  exact Nat.zero_add _

/-- Witness for C10: two `debug` calls of an algorithm that tests the
starting configuration once and returns it. -/
theorem claim_c10_witness :
    (∀ o : Outcome,
      (debugFold (fun _ config => (config, [config]))
          (fun _ => Outcome.PASS) initDebugger [([0], 1), ([0, 1], 2)]).counters
          o =
        ([([0], (1 : ℚ)), ([0, 1], 2)].map (fun r =>
          (((fun (_ : List ℕ → Outcome) (config : List ℕ) =>
              (config, [config])) (fun _ => Outcome.PASS) r.1).2.filter
            (fun c => decide ((fun _ => Outcome.PASS) c = o))).length)).sum) ∧
    (debugFold (fun _ config => (config, [config]))
        (fun _ => Outcome.PASS) initDebugger [([0], 1), ([0, 1], 2)]).config =
      (([([0], (1 : ℚ)), ([0, 1], 2)]).getLast (by simp)).1 ∧
    (debugFold (fun _ config => (config, [config]))
        (fun _ => Outcome.PASS) initDebugger [([0], 1), ([0, 1], 2)]).result =
      ((fun (_ : List ℕ → Outcome) (config : List ℕ) => (config, [config]))
        (fun _ => Outcome.PASS)
        (([([0], (1 : ℚ)), ([0, 1], 2)]).getLast (by simp)).1).1 ∧
    (debugFold (fun _ config => (config, [config]))
        (fun _ => Outcome.PASS) initDebugger [([0], 1), ([0, 1], 2)]).time =
      (([([0], (1 : ℚ)), ([0, 1], 2)]).getLast (by simp)).2 :=
  claim_c10_debugger_counters (fun _ config => (config, [config]))
    (fun _ => Outcome.PASS) [([0], 1), ([0, 1], 2)] (by simp)

end DeltaDebugging
